import Mathlib

/-!
# Verification of the MPT circuit (`mpt.rs`)

A shallow embedding of `src/mpt/src/mpt.rs`:

* the byte/word codec (`pad`, `into_words`),
* the gate expressions of `MPTConfig::configure` over an arbitrary field,
* the row assigner (`assign_row`, `assign_branch_init`, `assign_branch_row`,
  `assign_leaf`, `assign`) as a trace of cell-write events, with Rust panics
  modelled as `Option.none` and later writes to the same cell overriding
  earlier ones (halo2 region semantics).

Bytes and u64 words are modelled as `Nat`: every value the code feeds to a
cell is a `u8` byte, a `u64` word or a boolean flag, so no wrap-around can
occur and `F::from_u64` is injective for the pallas base field.

Modelled from the spec: the constants of `crate::param` (not under `src/`):
`HASH_WIDTH = 32` (32 hash-byte columns), `KECCAK_INPUT_WIDTH = 17`
(136-byte rate / 8), `KECCAK_OUTPUT_WIDTH = 4`, `LAYOUT_OFFSET = 2`
(rlp1, rlp2 precede the hash bytes), `WITNESS_ROW_WIDTH = 68` (two
symmetric 34-byte halves), `S_START = 2`, `C_START = 36`.

The Keccak-256 digest itself (crate `keccak256`, not under `src/`) is kept
as an explicit function parameter `kec` of the assigner; every theorem about
the assigner holds for an arbitrary digest function.
-/

/-- `MPTConfig::pad` (mpt.rs): append Keccak multi-rate padding for rate 136.
`padding_total = 136 - len % 136`; a single `0x81` when that is 1, else
`0x01`, zeros, `0x80` (Rust: `vec![0x01]` resized to `padding_total - 1`
with zeros, then `push(0x80)`). -/
def pad (input : List Nat) : List Nat :=
  let rate := 136
  let padding_total := rate - input.length % rate
  let padding : List Nat :=
    if padding_total = 1 then [0x81]
    else 0x01 :: (List.replicate (padding_total - 2) 0x00 ++ [0x80])
  input ++ padding

/-- `u64::from_le_bytes` on a byte list: little-endian base-256 value. -/
def wordLE (bs : List Nat) : Nat := bs.foldr (fun b acc => b + 256 * acc) 0

/-- `MPTConfig::into_words` (mpt.rs): `words_total = len / 8` words, the
`i`-th decoded little-endian from bytes `i*8 .. i*8+8`. -/
def into_words (message : List Nat) : List Nat :=
  (List.range (message.length / 8)).map (fun i => wordLE ((message.drop (i * 8)).take 8))

/-! ## Gate schema (`MPTConfig::configure`)

A circuit row's advice cells, over an arbitrary field `F` (the code is
generic over `F: FieldExt`). Queries at other rotations are passed to the
gate functions as extra arguments. -/

/-- The advice columns of one row of the MPT circuit. -/
structure RowCells (F : Type) where
  is_branch_init : F
  is_branch_child : F
  is_compact_leaf : F
  is_keccak_leaf : F
  node_index : F
  key : F
  is_modified : F
  s_rlp1 : F
  s_rlp2 : F
  c_rlp1 : F
  c_rlp2 : F
  s_advices : Fin 32 → F
  c_advices : Fin 32 → F
  s_keccak : Fin 4 → F
  c_keccak : Fin 4 → F

/-- `into_words_expr` (mpt.rs `configure`): turn 32 hash cells into 4 keccak
words, `word i = Σ_j hash[i*8+j] * 256^j`. -/
def into_words_expr {F : Type} [Field F] (hash : Fin 32 → F) : Fin 4 → F :=
  fun i => ∑ j : Fin 8, hash ⟨i.val * 8 + j.val, by omega⟩ * (256 : F) ^ (j : ℕ)

/-- The gate "general constraints" (mpt.rs), in source order: the four
boolean flag checks, "rlp 1", "rlp 2", "bool check is_modified",
"is modified", then the 32 "s = c" constraints. -/
def generalConstraints {F : Type} [Field F] (q_enable : F) (r : RowCells F) : List F :=
  [q_enable * (r.is_branch_init * (1 - r.is_branch_init)),
   q_enable * (r.is_branch_child * (1 - r.is_branch_child)),
   q_enable * (r.is_compact_leaf * (1 - r.is_compact_leaf)),
   q_enable * (r.is_keccak_leaf * (1 - r.is_keccak_leaf)),
   q_enable * r.is_branch_child * (r.s_rlp1 - r.c_rlp1) * (r.node_index - r.key),
   q_enable * r.is_branch_child * (r.s_rlp2 - r.c_rlp2) * (r.node_index - r.key),
   q_enable * (r.is_modified * (1 - r.is_modified)),
   q_enable * r.is_branch_child * r.is_modified * (r.node_index - r.key)]
  ++ (List.finRange 32).map (fun i =>
      q_enable * r.is_branch_child * (r.s_advices i - r.c_advices i) * (r.node_index - r.key))

/-- Index of `s_advices[KECCAK_INPUT_WIDTH + i] = s_advices[17 + i]`, the
`i`-th digest-word slot of a Keccak-leaf row. -/
def digestIdx (i : Fin 4) : Fin 32 := ⟨17 + i.val, by omega⟩

/-- The gate "keccak constraints" (mpt.rs), in source order:
"s_keccak the same for all branch children" (4), "c_keccak the same for all
branch children" (4), "keccak leaf output same as keccak in branch nodes" (4),
"s_keccak correspond to s_advices at the modified index" (4), and the
symmetric c-side (4). `s_keccak_prev`/`c_keccak_prev` are the `Rotation::prev()`
queries, `s_keccak_m2` the `Rotation(-2)` query of `s_keccak`, `c_keccak_m4`
the `Rotation(-4)` query of `c_keccak`. -/
def keccakConstraints {F : Type} [Field F] (q_not_first : F) (cur : RowCells F)
    (s_keccak_prev c_keccak_prev : Fin 4 → F) (s_keccak_m2 c_keccak_m4 : Fin 4 → F) : List F :=
  ((List.finRange 4).map fun i =>
      q_not_first * cur.is_branch_child * cur.node_index * (cur.s_keccak i - s_keccak_prev i))
  ++ ((List.finRange 4).map fun i =>
      q_not_first * cur.is_branch_child * cur.node_index * (cur.c_keccak i - c_keccak_prev i))
  ++ ((List.finRange 4).map fun i =>
      q_not_first * cur.is_keccak_leaf * (cur.s_advices (digestIdx i) - s_keccak_m2 i)
        * (cur.s_advices (digestIdx i) - c_keccak_m4 i))
  ++ ((List.finRange 4).map fun i =>
      q_not_first * cur.is_branch_child * cur.is_modified
        * (into_words_expr cur.s_advices i - cur.s_keccak i))
  ++ ((List.finRange 4).map fun i =>
      q_not_first * cur.is_branch_child * cur.is_modified
        * (into_words_expr cur.c_advices i - cur.c_keccak i))

/-- The all-zero row over `ZMod 3`, a base for concrete gate instances. -/
def zeroCells : RowCells (ZMod 3) :=
  ⟨0, 0, 0, 0, 0, 0, 0, 0, 0, 0, 0, fun _ => 0, fun _ => 0, fun _ => 0, fun _ => 0⟩

/-- Concrete branch-child row with `node_index = 0 ≠ 1 = key` and identical
S/C halves, for the sibling-equality gate instance. -/
def w2row : RowCells (ZMod 3) := { zeroCells with is_branch_child := 1, key := 1 }

/-- Concrete Keccak-leaf row whose first digest-word slot holds 1. -/
def c1cur : RowCells (ZMod 3) :=
  { zeroCells with is_keccak_leaf := 1,
                   s_advices := fun i => if i.val = 17 then 1 else 0 }

/-- `s_keccak` two rows back agreeing with `c1cur`'s digest-word slots. -/
def c1s2 : Fin 4 → ZMod 3 := fun i => if i.val = 0 then 1 else 0

/-- `c_keccak` four rows back, everywhere 0, disagreeing with `c1cur`'s first
digest-word slot. -/
def c1c4 : Fin 4 → ZMod 3 := fun _ => 0

/-! ## Row assigner (`assign_row`, `assign_branch_init`, `assign_branch_row`,
`assign_leaf`, `assign`)

The assigner is modelled as the list of cell-write events it issues, in
program order. A halo2 region lets a later `assign_advice` to the same cell
override an earlier one, so the final value of a cell is the LAST matching
write (`cellVal`). A Rust index/slice panic is modelled as `none`. -/

/-- A circuit column: the selector, the fixed not-first-row column, and the
advice columns of `MPTConfig`. -/
inductive Col where
  | qEnable : Col
  | qNotFirst : Col
  | isBranchInit : Col
  | isBranchChild : Col
  | isCompactLeaf : Col
  | isKeccakLeaf : Col
  | nodeIndex : Col
  | key : Col
  | isModified : Col
  | sRlp1 : Col
  | sRlp2 : Col
  | cRlp1 : Col
  | cRlp2 : Col
  | sAdvice : Fin 32 → Col
  | cAdvice : Fin 32 → Col
  | sKeccak : Fin 4 → Col
  | cKeccak : Fin 4 → Col
deriving DecidableEq

/-- One cell-write event: column, row offset, value written. -/
structure Wr where
  col : Col
  offset : Nat
  val : Nat
deriving DecidableEq

/-- Final value of cell `(c, o)` after the trace `tr`: the last write wins;
`none` when the cell is never written. -/
def cellVal (tr : List Wr) (c : Col) (o : Nat) : Option Nat :=
  ((tr.filter (fun e => decide (e.col = c) && decide (e.offset = o))).getLast?).map Wr.val

/-- Shift a write event down by `δ` rows. -/
def wShift (δ : Nat) (e : Wr) : Wr := ⟨e.col, e.offset + δ, e.val⟩

/-- `MPTConfig::assign_row` (mpt.rs): the writes it issues, in program order.
`row` is the tag-stripped witness row. The S side is indexed directly in
Rust (panics when `row` is shorter than 35, see `rowWrites`); `c_rlp2` and
the `c_advices` go through `get_val`, which yields 0 out of range. -/
def rowWritesL (row : List Nat) (is_branch_init is_branch_child : Bool)
    (node_index key : Nat) (is_compact_leaf is_keccak_leaf : Bool) (offset : Nat) : List Wr :=
  [⟨.isBranchInit, offset, if is_branch_init then 1 else 0⟩,
   ⟨.isBranchChild, offset, if is_branch_child then 1 else 0⟩,
   ⟨.nodeIndex, offset, node_index⟩,
   ⟨.key, offset, key⟩,
   ⟨.isModified, offset, if key = node_index then 1 else 0⟩,
   ⟨.isCompactLeaf, offset, if is_compact_leaf then 1 else 0⟩,
   ⟨.isKeccakLeaf, offset, if is_keccak_leaf then 1 else 0⟩,
   ⟨.sRlp1, offset, row.getD 0 0⟩,
   ⟨.sRlp2, offset, row.getD 1 0⟩]
  ++ (List.finRange 32).map (fun i => ⟨.sAdvice i, offset, row.getD (2 + i.val) 0⟩)
  ++ [⟨.cRlp1, offset, row.getD 34 0⟩,
      ⟨.cRlp2, offset, row.getD 35 0⟩]
  ++ (List.finRange 32).map (fun i => ⟨.cAdvice i, offset, row.getD (36 + i.val) 0⟩)

/-- `assign_row` with its panic: `row[0..34]` is indexed directly, so a row
shorter than 35 bytes panics. -/
def rowWrites (row : List Nat) (is_branch_init is_branch_child : Bool)
    (node_index key : Nat) (is_compact_leaf is_keccak_leaf : Bool) (offset : Nat) :
    Option (List Wr) :=
  if 35 ≤ row.length
  then some (rowWritesL row is_branch_init is_branch_child node_index key
      is_compact_leaf is_keccak_leaf offset)
  else none

/-- `MPTConfig::assign_branch_init` (mpt.rs): first writes `node_index = 0`,
`key = 0`, `is_modified = 0`, then calls `assign_row` (which writes those
same three cells again). -/
def branchInitWritesL (row : List Nat) (o : Nat) : List Wr :=
  [⟨.nodeIndex, o, 0⟩, ⟨.key, o, 0⟩, ⟨.isModified, o, 0⟩]
  ++ rowWritesL row true false 0 0 false false o

/-- `assign_branch_init` with `assign_row`'s panic. -/
def branchInitWrites (row : List Nat) (o : Nat) : Option (List Wr) :=
  if 35 ≤ row.length then some (branchInitWritesL row o) else none

/-- `MPTConfig::assign_branch_row` (mpt.rs): write the 4 `s_keccak` and 4
`c_keccak` registers, then `assign_row` with `is_branch_child = true`. -/
def branchRowWritesL (node_index key : Nat) (row sWords cWords : List Nat) (o : Nat) : List Wr :=
  (List.finRange 4).map (fun i => ⟨.sKeccak i, o, sWords.getD i.val 0⟩)
  ++ (List.finRange 4).map (fun i => ⟨.cKeccak i, o, cWords.getD i.val 0⟩)
  ++ rowWritesL row false true node_index key false false o

/-- `assign_branch_row` with its panics: `s_words[ind]`/`c_words[ind]` for
`ind < 4` and `assign_row`'s S-side indexing. -/
def branchRowWrites (node_index key : Nat) (row sWords cWords : List Nat) (o : Nat) :
    Option (List Wr) :=
  if 35 ≤ row.length ∧ 4 ≤ sWords.length ∧ 4 ≤ cWords.length
  then some (branchRowWritesL node_index key row sWords cWords o) else none

/-- `MPTConfig::assign_leaf` (mpt.rs): the compact-leaf data row at `o`, the
selector and not-first writes at `o + 1`, the all-zero Keccak row at `o + 1`
(`assign_row` on `vec![0; WITNESS_ROW_WIDTH]`), then the reassignment of
`s_advices[0..21]` at `o + 1` with the padded pre-image words (`kin`, first
17) and the digest words (`kout`, next 4). -/
def leafWritesL (kin kout row : List Nat) (o : Nat) : List Wr :=
  rowWritesL row false false 0 0 true false o
  ++ [⟨.qEnable, o + 1, 1⟩, ⟨.qNotFirst, o + 1, 1⟩]
  ++ rowWritesL (List.replicate 68 0) false false 0 0 false true (o + 1)
  ++ (List.finRange 21).map (fun i =>
      ⟨.sAdvice ⟨i.val, by omega⟩, o + 1,
        if i.val < 17 then kin.getD i.val 0 else kout.getD (i.val - 17) 0⟩)

/-- `assign_leaf` with its panics: `assign_row`'s S-side indexing,
`keccak_input[ind]` for `ind < 17` and `keccak_output[ind - 17]` for
`ind < 21`. `kec` stands for `compute_keccak` (crate `keccak256`). -/
def leafWrites (kec : List Nat → List Nat) (row : List Nat) (o : Nat) : Option (List Wr) :=
  if 35 ≤ row.length ∧ 17 ≤ (into_words (pad row)).length ∧ 4 ≤ (into_words (kec row)).length
  then some (leafWritesL (into_words (pad row)) (into_words (kec row)) row o) else none

/-- The mutable state of `MPTConfig::assign`'s loop: the row offset and the
carried `key`, `s_words`, `c_words`, `branch_ind` (a `u8`, hence mod 256). -/
structure AState where
  offset : Nat
  key : Nat
  sWords : List Nat
  cWords : List Nat
  branchInd : Nat
deriving DecidableEq

/-- The loop state before the first witness row:
`key = 0`, `s_words = c_words = vec![0, 0, 0, 0]`, `branch_ind = 0`. -/
def initState : AState := ⟨0, 0, [0, 0, 0, 0], [0, 0, 0, 0], 0⟩

/-- One iteration of `MPTConfig::assign`'s loop on witness row `r` at index
`ind`: dispatch on the trailing tag byte `r[r.len() - 1]` (0 = branch init
with the `witness[ind + 1 + key]` lookahead, 1 = branch child, 2 = compact
leaf emitting two rows); any other tag matches no `if` and is skipped. -/
def stepFn (kec : List Nat → List Nat) (w : List (List Nat)) (ind : Nat)
    (r : List Nat) (st : AState) : Option (List Wr × AState) :=
  match r.getLast? with
  | none => none
  | some tag =>
    if tag = 0 then
      match r.get? 4 with
      | none => none
      | some k =>
        match w.get? (ind + 1 + k) with
        | none => none
        | some lr =>
          if 68 ≤ lr.length then
            match branchInitWrites r.dropLast st.offset with
            | none => none
            | some ws =>
              some (⟨.qEnable, st.offset, 1⟩ ::
                    ⟨.qNotFirst, st.offset, if ind = 0 then 0 else 1⟩ :: ws,
                    ⟨st.offset + 1, k, into_words ((lr.drop 2).take 32),
                     into_words ((lr.drop 36).take 32), 0⟩)
          else none
    else if tag = 1 then
      match branchRowWrites st.branchInd st.key r.dropLast st.sWords st.cWords st.offset with
      | none => none
      | some ws =>
        some (⟨.qEnable, st.offset, 1⟩ :: ⟨.qNotFirst, st.offset, 1⟩ :: ws,
              { st with offset := st.offset + 1, branchInd := (st.branchInd + 1) % 256 })
    else if tag = 2 then
      match leafWrites kec r.dropLast st.offset with
      | none => none
      | some ws =>
        some (⟨.qEnable, st.offset, 1⟩ :: ⟨.qNotFirst, st.offset, 1⟩ :: ws,
              { st with offset := st.offset + 2 })
    else some ([], st)

/-- The loop of `MPTConfig::assign` over the remaining witness rows. -/
def assignLoop (kec : List Nat → List Nat) (w : List (List Nat)) :
    List (List Nat) → Nat → AState → Option (List Wr)
  | [], _, _ => some []
  | r :: rs, ind, st =>
    (stepFn kec w ind r st).bind (fun p =>
      (assignLoop kec w rs (ind + 1) p.2).map (fun tr => p.1 ++ tr))

/-- `MPTConfig::assign` (mpt.rs): the full write trace for a witness. -/
def assign (kec : List Nat → List Nat) (w : List (List Nat)) : Option (List Wr) :=
  assignLoop kec w w 0 initState

/-! ## Branch groups (for the well-formed-witness claims) -/

/-- A branch group of the witness: one BranchInit row and its child rows. -/
structure BGroup where
  init : List Nat
  children : List (List Nat)

/-- The group's key: byte 4 of its BranchInit row. -/
def BGroup.key (g : BGroup) : Nat := g.init.getD 4 0

/-- The witness rows of a group. -/
def BGroup.rows (g : BGroup) : List (List Nat) := g.init :: g.children

/-- The witness made of a sequence of branch groups. -/
def witnessOfGroups (gs : List BGroup) : List (List Nat) := (gs.map BGroup.rows).join

/-- A well-formed branch-child witness row: full width 69 (68 data bytes
plus the tag), tag 1. -/
def wfChildRow (r : List Nat) : Prop := r.length = 69 ∧ r.getLast? = some 1

/-- A well-formed BranchInit witness row: full width 69, tag 0, key byte in
`0..15`. -/
def wfInitRow (r : List Nat) : Prop :=
  r.length = 69 ∧ r.getLast? = some 0 ∧ r.getD 4 0 < 16

/-- A well-formed branch group: a BranchInit row followed by exactly 16
branch-child rows. -/
def BGroup.wf (g : BGroup) : Prop :=
  wfInitRow g.init ∧ g.children.length = 16 ∧ ∀ r ∈ g.children, wfChildRow r

instance (r : List Nat) : Decidable (wfChildRow r) := by unfold wfChildRow; infer_instance

instance (r : List Nat) : Decidable (wfInitRow r) := by unfold wfInitRow; infer_instance

instance (g : BGroup) : Decidable g.wf := by unfold BGroup.wf; infer_instance

/-! ## Concrete inputs for counterexamples and witnesses -/

/-- A concrete stand-in for the Keccak digest function. -/
def kecC : List Nat → List Nat := fun _ => List.replicate 32 0

/-- An all-zero BranchInit witness row (key 0, tag 0). -/
def initRowC : List Nat := List.replicate 69 0

/-- An all-zero branch-child witness row (tag 1). -/
def childRowC : List Nat := List.replicate 68 0 ++ [1]

/-- An all-zero compact-leaf witness row (tag 2). -/
def leafRowC : List Nat := List.replicate 68 0 ++ [2]

/-- A witness with one BranchInit row (and the child row its lookahead
reads). -/
def wBI : List (List Nat) := [initRowC, childRowC]

/-- The trace of `assign` on `wBI`. -/
def trBI : List Wr := (assign kecC wBI).getD []

/-- A witness with a single compact-leaf row. -/
def wLeaf : List (List Nat) := [leafRowC]

/-- The trace of `assign` on `wLeaf`. -/
def trLeaf : List Wr := (assign kecC wLeaf).getD []

/-- A branch-child row of full length 41 — narrower than the fixed row width
of 69. -/
def wRow40 : List Nat := List.replicate 40 0 ++ [1]

/-- The trace of `assign` on the narrow-row witness. -/
def tr40 : List Wr := (assign kecC [wRow40]).getD []

/-- The write list of the compact-leaf step on the concrete leaf row. -/
def c6ws : List Wr :=
  ((stepFn kecC [leafRowC] 0 leafRowC initState).map Prod.fst).getD []

/-- The state after the compact-leaf step on the concrete leaf row. -/
def c6st : AState :=
  ((stepFn kecC [leafRowC] 0 leafRowC initState).map Prod.snd).getD initState

/-- A BranchInit row with key byte 5. -/
def initRowG : List Nat := [0, 0, 0, 0, 5] ++ List.replicate 63 0 ++ [0]

/-- A concrete well-formed branch group with key 5. -/
def groupG : BGroup := ⟨initRowG, List.replicate 16 childRowC⟩

/-- The witness of the single group `groupG`. -/
def wG : List (List Nat) := witnessOfGroups [groupG]

/-- The trace of `assign` on `wG`. -/
def trG : List Wr := (assign kecC wG).getD []

theorem pad_len (x : List Nat) : (pad x).length = x.length + (136 - x.length % 136) := by
  unfold pad
  by_cases h : 136 - x.length % 136 = 1 <;> simp [h] <;> omega

theorem into_words_len (m : List Nat) : (into_words m).length = m.length / 8 := by
  simp [into_words]

/-- Claim C7: `pad` appends exactly `136 - (len % 136)` bytes — a single
`0x81` when that count is 1, otherwise `0x01`, zeros, and a final `0x80` —
the result's length is a multiple of 136, and the input is an unchanged
prefix of the result. -/
theorem pad_spec (x : List Nat) :
    (pad x).take x.length = x ∧
    (pad x).length = x.length + (136 - x.length % 136) ∧
    (pad x).length % 136 = 0 ∧
    (pad x).drop x.length =
      (if 136 - x.length % 136 = 1 then [0x81]
       else 0x01 :: (List.replicate (136 - x.length % 136 - 2) 0x00 ++ [0x80])) := by
  refine ⟨?_, pad_len x, ?_, ?_⟩
  · show (x ++ _).take x.length = x
    simpa using List.take_left x _
  · rw [pad_len]; omega
  · show (x ++ _).drop x.length = _
    simpa using List.drop_left x _

/-- Claim C8: `into_words (pad x)` (pack_words_le of pad) has exactly
`⌈(len x + 1) / 136⌉ * 136 / 8` words. -/
theorem pack_pad_len (x : List Nat) :
    (into_words (pad x)).length = (x.length + 1 + 135) / 136 * 136 / 8 := by
  rw [into_words_len, pad_len]
  omega

/-- Claim C10: `into_words` is total, returns exactly `⌊len/8⌋` words, the
trailing `len mod 8` bytes are silently ignored (dropping them does not
change the result), and the `i`-th word is the little-endian decoding of
bytes `8*i .. 8*i+8`. -/
theorem into_words_spec (m : List Nat) :
    (into_words m).length = m.length / 8 ∧
    into_words m = into_words (m.take (8 * (m.length / 8))) ∧
    ∀ i : Nat, (into_words m).getD i 0 =
      if i < m.length / 8 then wordLE ((m.drop (i * 8)).take 8) else 0 := by
  refine ⟨into_words_len m, ?_, ?_⟩
  · unfold into_words
    have hlen : (m.take (8 * (m.length / 8))).length = 8 * (m.length / 8) := by
      rw [List.length_take]
      omega
    rw [hlen]
    have h8 : 8 * (m.length / 8) / 8 = m.length / 8 := by omega
    rw [h8]
    apply List.map_congr_left
    intro i hi
    rw [List.mem_range] at hi
    congr 1
    rw [List.drop_take]
    rw [List.take_take]
    congr 1
    omega
  · intro i
    by_cases hi : i < m.length / 8
    · rw [if_pos hi]
      unfold into_words
      rw [List.getD_eq_getElem?_getD, List.getElem?_map, List.getElem?_range hi]
      rfl
    · rw [if_neg hi]
      apply List.getD_eq_default
      rw [into_words_len]
      omega

/-! ## Gate claims -/

theorem sub_factor_eq_zero {F : Type} [Field F] {x a b : F} (hx : x ≠ 0)
    (h : (a - b) * x = 0) : a = b := by
  rcases mul_eq_zero.mp h with h' | h'
  · exact sub_eq_zero.mp h'
  · exact absurd h' hx

/-- Claim C2: on a row satisfying the "general constraints" gate with the
row-enable selector set, if the row is a branch child and `node_index ≠ key`
(a non-modified sibling), then `s_rlp1 = c_rlp1`, `s_rlp2 = c_rlp2`, and
every one of the 32 hash byte columns agrees between the S and C halves;
the gate enforces this through `(s - c)·(node_index - key) = 0`. -/
theorem general_gate_sibling_eq (F : Type) [Field F] (r : RowCells F)
    (hsat : ∀ c ∈ generalConstraints (1 : F) r, c = 0)
    (hchild : r.is_branch_child = 1)
    (hne : r.node_index ≠ r.key) :
    r.s_rlp1 = r.c_rlp1 ∧ r.s_rlp2 = r.c_rlp2 ∧
      ∀ i : Fin 32, r.s_advices i = r.c_advices i := by
  have hd : r.node_index - r.key ≠ 0 := sub_ne_zero.mpr hne
  have h1 := hsat ((1 : F) * r.is_branch_child * (r.s_rlp1 - r.c_rlp1) * (r.node_index - r.key))
    (by unfold generalConstraints; simp)
  have h2 := hsat ((1 : F) * r.is_branch_child * (r.s_rlp2 - r.c_rlp2) * (r.node_index - r.key))
    (by unfold generalConstraints; simp)
  have h3 : ∀ i : Fin 32,
      (1 : F) * r.is_branch_child * (r.s_advices i - r.c_advices i) * (r.node_index - r.key) = 0 := by
    intro i
    refine hsat _ ?_
    unfold generalConstraints
    exact List.mem_append_right _ (List.mem_map.mpr ⟨i, List.mem_finRange i, rfl⟩)
  rw [hchild, one_mul, one_mul] at h1 h2
  refine ⟨sub_factor_eq_zero hd h1, sub_factor_eq_zero hd h2, fun i => ?_⟩
  have h := h3 i
  rw [hchild, one_mul, one_mul] at h
  exact sub_factor_eq_zero hd h

/-- Witness for C2 at a concrete row over `ZMod 3`: a branch-child row with
`node_index = 0`, `key = 1` and identical halves satisfies the gate, so the
theorem yields the equalities. -/
theorem general_gate_sibling_eq_w :
    w2row.s_rlp1 = w2row.c_rlp1 ∧ w2row.s_rlp2 = w2row.c_rlp2 ∧
      ∀ i : Fin 32, w2row.s_advices i = w2row.c_advices i :=
  general_gate_sibling_eq (ZMod 3) w2row (by decide) (by decide) (by decide)

/-- Counterexample to claim C1 as stated: a concrete Keccak-leaf assignment
over `ZMod 3` that satisfies every constraint of the "keccak constraints"
gate (with the not-first-row fixed column set to 1) but whose first
digest-word slot differs from the `c_keccak` register four rows back — the
gate's product form only forces one of the two equalities, not both. -/
theorem keccak_leaf_gate_cex :
    (∀ c ∈ keccakConstraints (1 : ZMod 3) c1cur c1s2 c1c4 c1s2 c1c4, c = 0)
      ∧ c1cur.is_keccak_leaf = 1
      ∧ ¬ (∀ i : Fin 4, c1cur.s_advices (digestIdx i) = c1s2 i
            ∧ c1cur.s_advices (digestIdx i) = c1c4 i) := by
  decide

/-- Claim C1 amended: on a row satisfying the "keccak constraints" gate with
the not-first-row fixed column set, if the row is a Keccak leaf then each of
its 4 digest-word columns `s_advices[17..20]` equals the corresponding
`s_keccak` register 2 rows back OR the corresponding `c_keccak` register
4 rows back (the product constraint enforces the disjunction, not the
conjunction). -/
theorem keccak_leaf_gate_disj (F : Type) [Field F] (cur : RowCells F)
    (s_keccak_prev c_keccak_prev s_keccak_m2 c_keccak_m4 : Fin 4 → F)
    (hsat : ∀ c ∈ keccakConstraints (1 : F) cur s_keccak_prev c_keccak_prev s_keccak_m2 c_keccak_m4,
      c = 0)
    (hleaf : cur.is_keccak_leaf = 1) :
    ∀ i : Fin 4, cur.s_advices (digestIdx i) = s_keccak_m2 i
      ∨ cur.s_advices (digestIdx i) = c_keccak_m4 i := by
  intro i
  have h : (1 : F) * cur.is_keccak_leaf * (cur.s_advices (digestIdx i) - s_keccak_m2 i)
      * (cur.s_advices (digestIdx i) - c_keccak_m4 i) = 0 := by
    refine hsat _ ?_
    unfold keccakConstraints
    refine List.mem_append_left _ (List.mem_append_left _ (List.mem_append_right _ ?_))
    exact List.mem_map.mpr ⟨i, List.mem_finRange i, rfl⟩
  rw [hleaf, one_mul, one_mul] at h
  rcases mul_eq_zero.mp h with h' | h'
  · exact Or.inl (sub_eq_zero.mp h')
  · exact Or.inr (sub_eq_zero.mp h')

/-- Witness for the amended C1 at the concrete `ZMod 3` Keccak-leaf row. -/
theorem keccak_leaf_gate_disj_w :
    (c1cur.s_advices (digestIdx 0) = c1s2 0 ∨ c1cur.s_advices (digestIdx 0) = c1c4 0) ∧
    (c1cur.s_advices (digestIdx 1) = c1s2 1 ∨ c1cur.s_advices (digestIdx 1) = c1c4 1) ∧
    (c1cur.s_advices (digestIdx 2) = c1s2 2 ∨ c1cur.s_advices (digestIdx 2) = c1c4 2) ∧
    (c1cur.s_advices (digestIdx 3) = c1s2 3 ∨ c1cur.s_advices (digestIdx 3) = c1c4 3) :=
  ⟨keccak_leaf_gate_disj (ZMod 3) c1cur c1s2 c1c4 c1s2 c1c4 (by decide) (by decide) 0,
   keccak_leaf_gate_disj (ZMod 3) c1cur c1s2 c1c4 c1s2 c1c4 (by decide) (by decide) 1,
   keccak_leaf_gate_disj (ZMod 3) c1cur c1s2 c1c4 c1s2 c1c4 (by decide) (by decide) 2,
   keccak_leaf_gate_disj (ZMod 3) c1cur c1s2 c1c4 c1s2 c1c4 (by decide) (by decide) 3⟩

/-! ## Concrete assigner evaluations (C5, C9 counterexample, C4 counterexample) -/

set_option maxRecDepth 100000
set_option maxHeartbeats 1600000

/-- Claim C5 (code bug): at a BranchInit row, `assign_branch_init` first
writes `is_modified = 0` but then calls `assign_row` with
`node_index = key = 0`, which overwrites the cell with
`(key == node_index) as u64 = 1`. The final assigned `is_modified` at the
branch-init row is therefore 1, while the spec (and the dead first write)
say 0. The other C5 cells are as claimed: one row, `is_branch_init = 1`,
other structural flags 0, `node_index = 0`, `key = 0`, next offset 1. -/
theorem branch_init_is_modified_bug :
    (assign kecC wBI).isSome = true ∧
    (trBI.filter (fun e => decide (e.col = Col.isModified) && decide (e.offset = 0))).map Wr.val
      = [0, 1] ∧
    cellVal trBI Col.isModified 0 = some 1 ∧
    cellVal trBI Col.isBranchInit 0 = some 1 ∧
    cellVal trBI Col.isBranchChild 0 = some 0 ∧
    cellVal trBI Col.isCompactLeaf 0 = some 0 ∧
    cellVal trBI Col.isKeccakLeaf 0 = some 0 ∧
    cellVal trBI Col.nodeIndex 0 = some 0 ∧
    cellVal trBI Col.key 0 = some 0 := by
  decide

/-- Counterexample to claim C9 as stated: on a single compact-leaf witness,
the cell `(s_advices[0], offset 1)` of the synthesized Keccak row is written
twice — once with 0 by `assign_row` and once by the reassignment loop — so
not every circuit cell is written exactly once. -/
theorem assign_double_write_cex :
    (assign kecC wLeaf).isSome = true ∧
    (trLeaf.filter (fun e => decide (e.col = Col.sAdvice 0) && decide (e.offset = 1))).length
      = 2 := by
  decide

/-- Counterexample to claim C4 as stated: a witness row of full length 41
(narrower than the fixed width 69) is assigned without any error, with the
missing C-side cells silently zero-filled by `get_val`; and a witness row
with unknown type tag 3 is silently skipped (assignment succeeds and emits
nothing). -/
theorem assign_malformed_cex :
    wRow40.length = 41 ∧
    (assign kecC [wRow40]).isSome = true ∧
    cellVal tr40 (Col.cAdvice 31) 0 = some 0 ∧
    assign kecC [[3]] = some [] := by
  decide

/-! ## Trace helper lemmas -/

theorem cellVal_offsets_ne {L : List Wr} {o : Nat} (h : ∀ e ∈ L, e.offset ≠ o) (c : Col) :
    cellVal L c o = none := by
  unfold cellVal
  have hf : L.filter (fun e => decide (e.col = c) && decide (e.offset = o)) = [] := by
    rw [List.filter_eq_nil]
    intro e he
    simp [h e he]
  rw [hf]
  rfl

theorem cellVal_append_right_none {a b : List Wr} {c : Col} {o : Nat}
    (h : cellVal b c o = none) : cellVal (a ++ b) c o = cellVal a c o := by
  unfold cellVal at *
  rw [List.filter_append]
  cases hf : b.filter (fun e => decide (e.col = c) && decide (e.offset = o)) with
  | nil => rw [List.append_nil]
  | cons x xs =>
    rw [hf] at h
    simp [List.getLast?_eq_none_iff] at h
  done

theorem cellVal_append_right_some {a b : List Wr} {c : Col} {o : Nat} {v : Nat}
    (h : cellVal b c o = some v) : cellVal (a ++ b) c o = some v := by
  unfold cellVal at *
  rw [List.filter_append]
  cases hf : b.filter (fun e => decide (e.col = c) && decide (e.offset = o)) with
  | nil => rw [hf] at h; exact absurd h (by simp)
  | cons x xs =>
    rw [hf] at h
    rw [List.getLast?_append_of_ne_nil _ (by simp)]
    exact h

theorem cellVal_cons_col_ne {a : Wr} {c : Col} (h : a.col ≠ c) (l : List Wr) (o : Nat) :
    cellVal (a :: l) c o = cellVal l c o := by
  unfold cellVal
  rw [List.filter_cons]
  simp [h]

theorem cellVal_shift (L : List Wr) (δ : Nat) (c : Col) (o : Nat) :
    cellVal (L.map (wShift δ)) c (o + δ) = cellVal L c o := by
  unfold cellVal
  rw [List.filter_map]
  have hp : ((fun e => decide (e.col = c) && decide (e.offset = o + δ)) ∘ wShift δ)
      = fun e => decide (e.col = c) && decide (e.offset = o) := by
    funext e
    simp [wShift]
  rw [hp, List.getLast?_map, Option.map_map]
  rfl

/-! ## Shift normal forms of the write builders -/

theorem wShift_wShift (a b : Nat) : wShift a ∘ wShift b = wShift (a + b) := by
  funext e
  simp only [Function.comp_apply, wShift]
  congr 1
  omega

theorem rowWritesL_shift (row : List Nat) (bi bc : Bool) (ni k : Nat) (cl kl : Bool) (o : Nat) :
    rowWritesL row bi bc ni k cl kl o = (rowWritesL row bi bc ni k cl kl 0).map (wShift o) := by
  simp [rowWritesL, wShift, List.map_map, Function.comp_def]

theorem branchInitWritesL_shift (row : List Nat) (o : Nat) :
    branchInitWritesL row o = (branchInitWritesL row 0).map (wShift o) := by
  simp [branchInitWritesL, wShift, rowWritesL_shift row true false 0 0 false false o]

theorem branchRowWritesL_shift (ni k : Nat) (row sW cW : List Nat) (o : Nat) :
    branchRowWritesL ni k row sW cW o = (branchRowWritesL ni k row sW cW 0).map (wShift o) := by
  simp [branchRowWritesL, wShift, List.map_map, Function.comp_def,
    rowWritesL_shift row false true ni k false false o]

theorem leafWritesL_shift (kin kout row : List Nat) (o : Nat) :
    leafWritesL kin kout row o = (leafWritesL kin kout row 0).map (wShift o) := by
  simp only [leafWritesL, List.map_append, List.map_map, List.map_cons, List.map_nil]
  rw [rowWritesL_shift row false false 0 0 true false o,
    rowWritesL_shift (List.replicate 68 0) false false 0 0 false true (o + 1),
    rowWritesL_shift (List.replicate 68 0) false false 0 0 false true (0 + 1),
    List.map_map, wShift_wShift]
  simp [wShift, Function.comp_def, Nat.add_comm]

/-- Query a shifted builder list at `o + q` by querying the base at `q`. -/
theorem cellVal_map_shift (L : List Wr) (o q : Nat) (c : Col) :
    cellVal (L.map (wShift o)) c (o + q) = cellVal L c q := by
  rw [Nat.add_comm o q]
  exact cellVal_shift L o c q

/-! ## Offsets of the write builders -/

theorem mem_rowWritesL_offset {e : Wr} {row : List Nat} {bi bc : Bool} {ni k : Nat}
    {cl kl : Bool} {o : Nat} (h : e ∈ rowWritesL row bi bc ni k cl kl o) : e.offset = o := by
  unfold rowWritesL at h
  rcases List.mem_append.mp h with h' | h'
  · rcases List.mem_append.mp h' with h'' | h''
    · rcases List.mem_append.mp h'' with h3 | h3
      · fin_cases h3 <;> rfl
      · obtain ⟨i, -, rfl⟩ := List.mem_map.mp h3; rfl
    · fin_cases h'' <;> rfl
  · obtain ⟨i, -, rfl⟩ := List.mem_map.mp h'; rfl

theorem mem_branchInitWritesL_offset {e : Wr} {row : List Nat} {o : Nat}
    (h : e ∈ branchInitWritesL row o) : e.offset = o := by
  unfold branchInitWritesL at h
  rcases List.mem_append.mp h with h' | h'
  · fin_cases h' <;> rfl
  · exact mem_rowWritesL_offset h'

theorem mem_branchRowWritesL_offset {e : Wr} {ni k : Nat} {row sW cW : List Nat} {o : Nat}
    (h : e ∈ branchRowWritesL ni k row sW cW o) : e.offset = o := by
  unfold branchRowWritesL at h
  rcases List.mem_append.mp h with h' | h'
  · rcases List.mem_append.mp h' with h'' | h''
    · obtain ⟨i, -, rfl⟩ := List.mem_map.mp h''; rfl
    · obtain ⟨i, -, rfl⟩ := List.mem_map.mp h''; rfl
  · exact mem_rowWritesL_offset h'

theorem mem_leafWritesL_offset {e : Wr} {kin kout row : List Nat} {o : Nat}
    (h : e ∈ leafWritesL kin kout row o) : e.offset = o ∨ e.offset = o + 1 := by
  unfold leafWritesL at h
  rcases List.mem_append.mp h with h' | h'
  · rcases List.mem_append.mp h' with h'' | h''
    · rcases List.mem_append.mp h'' with h3 | h3
      · exact Or.inl (mem_rowWritesL_offset h3)
      · fin_cases h3 <;> exact Or.inr rfl
    · exact Or.inr (mem_rowWritesL_offset h'')
  · obtain ⟨i, -, rfl⟩ := List.mem_map.mp h'; exact Or.inr rfl

theorem pairwise_le_of_const_offset {L : List Wr} {o : Nat} (h : ∀ e ∈ L, e.offset = o) :
    L.Pairwise (fun a b => a.offset ≤ b.offset) := by
  induction L with
  | nil => exact List.Pairwise.nil
  | cons a l ih =>
    refine List.Pairwise.cons (fun b hb => ?_) (ih (fun e he => h e (List.mem_cons_of_mem a he)))
    rw [h a (List.mem_cons_self a l), h b (List.mem_cons_of_mem a hb)]

/-! ## Step computation lemmas -/

theorem stepFn_child_eq (kec : List Nat → List Nat) (w : List (List Nat)) (ind : Nat)
    (r : List Nat) (st : AState) (hr : wfChildRow r)
    (hsw : 4 ≤ st.sWords.length) (hcw : 4 ≤ st.cWords.length) :
    stepFn kec w ind r st = some
      (⟨Col.qEnable, st.offset, 1⟩ :: ⟨Col.qNotFirst, st.offset, 1⟩ ::
        branchRowWritesL st.branchInd st.key r.dropLast st.sWords st.cWords st.offset,
       { st with offset := st.offset + 1, branchInd := (st.branchInd + 1) % 256 }) := by
  obtain ⟨hlen, htag⟩ := hr
  have h35 : 35 ≤ r.dropLast.length := by
    rw [List.length_dropLast, hlen]
    omega
  simp only [stepFn, htag]
  norm_num
  unfold branchRowWrites
  rw [if_pos ⟨h35, hsw, hcw⟩]

theorem stepFn_init_eq (kec : List Nat → List Nat) (w : List (List Nat)) (ind : Nat)
    (r : List Nat) (st : AState) (hr : wfInitRow r) (lr : List Nat)
    (hlook : w.get? (ind + 1 + r.getD 4 0) = some lr) (hlr : 68 ≤ lr.length) :
    stepFn kec w ind r st = some
      (⟨Col.qEnable, st.offset, 1⟩ ::
        ⟨Col.qNotFirst, st.offset, if ind = 0 then 0 else 1⟩ ::
        branchInitWritesL r.dropLast st.offset,
       ⟨st.offset + 1, r.getD 4 0, into_words ((lr.drop 2).take 32),
        into_words ((lr.drop 36).take 32), 0⟩) := by
  obtain ⟨hlen, htag, hkey⟩ := hr
  have h4' : 4 < r.length := by omega
  have h4 : r.get? 4 = some (r.getD 4 0) := by
    have he : r[4]? = some r[4] := List.getElem?_eq_getElem h4'
    rw [List.get?_eq_getElem?, he, List.getD_eq_getElem?_getD, he]
    rfl
  have h35 : 35 ≤ r.dropLast.length := by
    rw [List.length_dropLast, hlen]
    omega
  simp only [stepFn, htag, h4, hlook, hlr, if_true]
  unfold branchInitWrites
  rw [if_pos h35]

theorem stepFn_leaf_eq (kec : List Nat → List Nat) (w : List (List Nat)) (ind : Nat)
    (r : List Nat) (st : AState) (hlen : r.length = 69) (htag : r.getLast? = some 2)
    (hkout : 4 ≤ (into_words (kec r.dropLast)).length) :
    stepFn kec w ind r st = some
      (⟨Col.qEnable, st.offset, 1⟩ :: ⟨Col.qNotFirst, st.offset, 1⟩ ::
        leafWritesL (into_words (pad r.dropLast)) (into_words (kec r.dropLast))
          r.dropLast st.offset,
       { st with offset := st.offset + 2 }) := by
  have h35 : 35 ≤ r.dropLast.length := by
    rw [List.length_dropLast, hlen]
    omega
  have hkin : 17 ≤ (into_words (pad r.dropLast)).length := by
    rw [into_words_len, pad_len, List.length_dropLast, hlen]
  simp only [stepFn, htag]
  norm_num
  unfold leafWrites
  rw [if_pos ⟨h35, hkin, hkout⟩]

theorem stepFn_skip_eq (kec : List Nat → List Nat) (w : List (List Nat)) (ind : Nat)
    (r : List Nat) (st : AState) (t : Nat) (htag : r.getLast? = some t)
    (h0 : t ≠ 0) (h1 : t ≠ 1) (h2 : t ≠ 2) :
    stepFn kec w ind r st = some ([], st) := by
  simp only [stepFn, htag]
  rw [if_neg h0, if_neg h1, if_neg h2]

/-! ## Offset monotonicity of the assigner -/

theorem leafWritesL_pairwise (kin kout row : List Nat) (o : Nat) :
    (leafWritesL kin kout row o).Pairwise (fun a b => a.offset ≤ b.offset) := by
  have hA : ∀ e ∈ rowWritesL row false false 0 0 true false o, e.offset = o :=
    fun e he => mem_rowWritesL_offset he
  have hB : ∀ e ∈ rowWritesL (List.replicate 68 0) false false 0 0 false true (o + 1),
      e.offset = o + 1 := fun e he => mem_rowWritesL_offset he
  have hC : ∀ e ∈ (List.finRange 21).map (fun i =>
      (⟨Col.sAdvice ⟨i.val, by omega⟩, o + 1,
        if i.val < 17 then kin.getD i.val 0 else kout.getD (i.val - 17) 0⟩ : Wr)),
      e.offset = o + 1 := by
    intro e he
    obtain ⟨i, -, rfl⟩ := List.mem_map.mp he
    rfl
  have hQ : ∀ e ∈ [(⟨Col.qEnable, o + 1, 1⟩ : Wr), ⟨Col.qNotFirst, o + 1, 1⟩],
      e.offset = o + 1 := by
    intro e he
    fin_cases he <;> rfl
  unfold leafWritesL
  refine List.pairwise_append.mpr ⟨List.pairwise_append.mpr
    ⟨List.pairwise_append.mpr ⟨pairwise_le_of_const_offset hA,
      pairwise_le_of_const_offset hQ, ?_⟩,
     pairwise_le_of_const_offset hB, ?_⟩, pairwise_le_of_const_offset hC, ?_⟩
  · intro a ha b hb
    rw [hA a ha, hQ b hb]
    omega
  · intro a ha b hb
    rw [hB b hb]
    rcases List.mem_append.mp ha with h' | h'
    · rw [hA a h']; omega
    · rw [hQ a h']
  · intro a ha b hb
    rw [hC b hb]
    rcases List.mem_append.mp ha with h' | h'
    · rcases List.mem_append.mp h' with h'' | h''
      · rw [hA a h'']; omega
      · rw [hQ a h'']
    · rw [hB a h']

theorem stepFn_bounds {kec : List Nat → List Nat} {w : List (List Nat)} {ind : Nat}
    {r : List Nat} {st : AState} {ws : List Wr} {st' : AState}
    (h : stepFn kec w ind r st = some (ws, st')) :
    st.offset ≤ st'.offset ∧ List.Pairwise (fun a b => a.offset ≤ b.offset) ws ∧
      ∀ e ∈ ws, st.offset ≤ e.offset ∧ e.offset < st'.offset := by
  unfold stepFn at h
  set qv : Nat := if ind = 0 then 0 else 1 with hqv
  clear_value qv
  split at h
  · exact absurd h (by simp)
  · split_ifs at h with h0 h1 h2
    · -- branch init
      split at h
      · exact absurd h (by simp)
      · split at h
        · exact absurd h (by simp)
        · split_ifs at h with hlr
          · split at h
            · exact absurd h (by simp)
            · rename_i ws0 hws0
              simp only [Option.some.injEq, Prod.mk.injEq] at h
              obtain ⟨rfl, rfl⟩ := h
              unfold branchInitWrites at hws0
              split_ifs at hws0
              simp only [Option.some.injEq] at hws0
              subst hws0
              have hmem : ∀ e ∈ ((⟨Col.qEnable, st.offset, 1⟩ : Wr) ::
                  (⟨Col.qNotFirst, st.offset, qv⟩ : Wr) ::
                  branchInitWritesL r.dropLast st.offset), e.offset = st.offset := by
                intro e he
                rcases List.mem_cons.mp he with rfl | he'
                · rfl
                · rcases List.mem_cons.mp he' with rfl | he''
                  · rfl
                  · exact mem_branchInitWritesL_offset he''
              refine ⟨by dsimp only; omega, pairwise_le_of_const_offset hmem,
                fun e he => ?_⟩
              rw [hmem e he]
              dsimp only
              omega
    · -- branch child
      split at h
      · exact absurd h (by simp)
      · rename_i ws0 hws0
        simp only [Option.some.injEq, Prod.mk.injEq] at h
        obtain ⟨rfl, rfl⟩ := h
        unfold branchRowWrites at hws0
        split_ifs at hws0
        simp only [Option.some.injEq] at hws0
        subst hws0
        have hmem : ∀ e ∈ ((⟨Col.qEnable, st.offset, 1⟩ : Wr) ::
            (⟨Col.qNotFirst, st.offset, 1⟩ : Wr) ::
            branchRowWritesL st.branchInd st.key r.dropLast st.sWords st.cWords st.offset),
            e.offset = st.offset := by
          intro e he
          rcases List.mem_cons.mp he with rfl | he'
          · rfl
          · rcases List.mem_cons.mp he' with rfl | he''
            · rfl
            · exact mem_branchRowWritesL_offset he''
        refine ⟨by dsimp only; omega, pairwise_le_of_const_offset hmem, fun e he => ?_⟩
        rw [hmem e he]
        dsimp only
        omega
    · -- compact leaf
      split at h
      · exact absurd h (by simp)
      · rename_i ws0 hws0
        simp only [Option.some.injEq, Prod.mk.injEq] at h
        obtain ⟨rfl, rfl⟩ := h
        unfold leafWrites at hws0
        split_ifs at hws0
        simp only [Option.some.injEq] at hws0
        subst hws0
        have hmem : ∀ e ∈ leafWritesL (into_words (pad r.dropLast))
            (into_words (kec r.dropLast)) r.dropLast st.offset,
            st.offset ≤ e.offset ∧ e.offset < st.offset + 2 := by
          intro e he
          rcases mem_leafWritesL_offset he with h' | h' <;> rw [h'] <;> omega
        refine ⟨by dsimp only; omega, ?_, ?_⟩
        · refine List.Pairwise.cons ?_ (List.Pairwise.cons ?_ (leafWritesL_pairwise _ _ _ _))
          · intro b hb
            rcases List.mem_cons.mp hb with rfl | hb'
            · rfl
            · exact (hmem b hb').1
          · intro b hb
            exact (hmem b hb).1
        · intro e he
          rcases List.mem_cons.mp he with rfl | he'
          · exact ⟨Nat.le_refl _, Nat.lt_add_of_pos_right (by omega)⟩
          · rcases List.mem_cons.mp he' with rfl | he''
            · exact ⟨Nat.le_refl _, Nat.lt_add_of_pos_right (by omega)⟩
            · exact hmem e he''
    · -- unknown tag: no writes, state unchanged
      simp only [Option.some.injEq, Prod.mk.injEq] at h
      obtain ⟨rfl, rfl⟩ := h
      exact ⟨le_refl _, List.Pairwise.nil, by simp⟩

theorem assignLoop_cons (kec : List Nat → List Nat) (w : List (List Nat)) (r : List Nat)
    (rs : List (List Nat)) (ind : Nat) (st : AState) :
    assignLoop kec w (r :: rs) ind st =
      (stepFn kec w ind r st).bind (fun p =>
        (assignLoop kec w rs (ind + 1) p.2).map (fun tr => p.1 ++ tr)) := rfl

theorem assignLoop_bounds (kec : List Nat → List Nat) (w : List (List Nat)) :
    ∀ (rows : List (List Nat)) (ind : Nat) (st : AState) (tr : List Wr),
      assignLoop kec w rows ind st = some tr →
      List.Pairwise (fun a b => a.offset ≤ b.offset) tr ∧ ∀ e ∈ tr, st.offset ≤ e.offset := by
  intro rows
  induction rows with
  | nil =>
    intro ind st tr h
    simp only [assignLoop, Option.some.injEq] at h
    subst h
    exact ⟨List.Pairwise.nil, by simp⟩
  | cons r rs ih =>
    intro ind st tr h
    rw [assignLoop_cons] at h
    cases hstep : stepFn kec w ind r st with
    | none => rw [hstep] at h; exact absurd h (by simp)
    | some p =>
      obtain ⟨ws, st2⟩ := p
      rw [hstep] at h
      simp only [Option.some_bind] at h
      cases hrest : assignLoop kec w rs (ind + 1) st2 with
      | none => rw [hrest] at h; exact absurd h (by simp)
      | some tr' =>
        rw [hrest] at h
        simp only [Option.map_some', Option.some.injEq] at h
        subst h
        obtain ⟨hle, hpw, hmem⟩ := stepFn_bounds hstep
        obtain ⟨hpw', hmem'⟩ := ih (ind + 1) st2 tr' hrest
        constructor
        · refine List.pairwise_append.mpr ⟨hpw, hpw', fun a ha b hb => ?_⟩
          exact le_trans (le_of_lt (hmem a ha).2) (hmem' b hb)
        · intro e he
          rcases List.mem_append.mp he with h' | h'
          · exact (hmem e h').1
          · exact le_trans hle (hmem' e h')

/-- Claim C9 amended: the write events of a whole assignment occur in
nondecreasing row-offset order — the assigner never returns to an earlier
row once it has advanced past it. (The "each cell written exactly once"
part of the claim is false, see the counterexample: within a leaf's
emission the Keccak row's first 21 `s_advices` cells, and within a
branch-init row `node_index`, `key`, `is_modified`, are written twice.) -/
theorem assign_offsets_monotone (kec : List Nat → List Nat) (w : List (List Nat))
    (tr : List Wr) (h : assign kec w = some tr) :
    List.Pairwise (fun a b => a.offset ≤ b.offset) tr :=
  (assignLoop_bounds kec w w 0 initState tr h).1

/-- Witness for the amended C9 on the concrete single-leaf witness. -/
theorem assign_offsets_monotone_w :
    List.Pairwise (fun a b => a.offset ≤ b.offset) trLeaf :=
  assign_offsets_monotone kecC wLeaf trLeaf (by rfl)

/-! ## Cell values of the leaf block (base offsets 0 and 1) -/

theorem cellVal_leafL (kin kout row : List Nat) (o q : Nat) (c : Col) :
    cellVal (leafWritesL kin kout row o) c (o + q) = cellVal (leafWritesL kin kout row 0) c q := by
  rw [leafWritesL_shift]
  exact cellVal_map_shift _ o q c

theorem leafL_isCompactLeaf0 (kin kout row : List Nat) :
    cellVal (leafWritesL kin kout row 0) Col.isCompactLeaf 0 = some 1 := rfl

theorem leafL_isBranchInit0 (kin kout row : List Nat) :
    cellVal (leafWritesL kin kout row 0) Col.isBranchInit 0 = some 0 := rfl

theorem leafL_isBranchChild0 (kin kout row : List Nat) :
    cellVal (leafWritesL kin kout row 0) Col.isBranchChild 0 = some 0 := rfl

theorem leafL_isKeccakLeaf0 (kin kout row : List Nat) :
    cellVal (leafWritesL kin kout row 0) Col.isKeccakLeaf 0 = some 0 := rfl

theorem leafL_sAdvice0 (kin kout row : List Nat) (i : Fin 32) :
    cellVal (leafWritesL kin kout row 0) (Col.sAdvice i) 0 = some (row.getD (2 + i.val) 0) := by
  fin_cases i <;> rfl

theorem leafL_isKeccakLeaf1 (kin kout row : List Nat) :
    cellVal (leafWritesL kin kout row 0) Col.isKeccakLeaf 1 = some 1 := rfl

theorem leafL_isCompactLeaf1 (kin kout row : List Nat) :
    cellVal (leafWritesL kin kout row 0) Col.isCompactLeaf 1 = some 0 := rfl

theorem leafL_isBranchInit1 (kin kout row : List Nat) :
    cellVal (leafWritesL kin kout row 0) Col.isBranchInit 1 = some 0 := rfl

theorem leafL_isBranchChild1 (kin kout row : List Nat) :
    cellVal (leafWritesL kin kout row 0) Col.isBranchChild 1 = some 0 := rfl

theorem leafL_sAdvice1 (kin kout row : List Nat) (i : Fin 32) :
    cellVal (leafWritesL kin kout row 0) (Col.sAdvice i) 1 =
      some (if i.val < 17 then kin.getD i.val 0
            else if i.val < 21 then kout.getD (i.val - 17) 0 else 0) := by
  fin_cases i <;> rfl

theorem leafL_cAdvice1 (kin kout row : List Nat) (i : Fin 32) :
    cellVal (leafWritesL kin kout row 0) (Col.cAdvice i) 1 = some 0 := by
  fin_cases i <;> rfl

theorem leafL_rlps1 (kin kout row : List Nat) :
    cellVal (leafWritesL kin kout row 0) Col.sRlp1 1 = some 0 ∧
    cellVal (leafWritesL kin kout row 0) Col.sRlp2 1 = some 0 ∧
    cellVal (leafWritesL kin kout row 0) Col.cRlp1 1 = some 0 ∧
    cellVal (leafWritesL kin kout row 0) Col.cRlp2 1 = some 0 :=
  ⟨rfl, rfl, rfl, rfl⟩

/-- Claim C6: on a CompactLeaf witness row (full width 69, so 68 data bytes)
the assigner emits a data row at the current offset — `is_compact_leaf = 1`,
the other structural flags 0, the raw leaf bytes in the S columns — and a
synthesized row at offset+1 — `is_keccak_leaf = 1`, other structural flags 0,
its first 17 `s_advices` slots holding `into_words (pad leaf_bytes)`, the
next 4 holding `into_words (kec leaf_bytes)` (the word-packed digest), zeros
in the remaining `s_advices`, the `c_advices` and the rlp columns — and then
advances the offset by exactly two rows. `kec` stands for the Keccak-256
digest (`compute_keccak`), kept abstract; its digest must be 32 bytes. -/
theorem compact_leaf_rows (kec : List Nat → List Nat) (w : List (List Nat)) (ind : Nat)
    (row : List Nat) (st : AState) (ws : List Wr) (st' : AState)
    (hlen : row.length = 69) (htag : row.getLast? = some 2)
    (hkec : (kec row.dropLast).length = 32)
    (hstep : stepFn kec w ind row st = some (ws, st')) :
    st'.offset = st.offset + 2 ∧
    cellVal ws Col.isCompactLeaf st.offset = some 1 ∧
    cellVal ws Col.isBranchInit st.offset = some 0 ∧
    cellVal ws Col.isBranchChild st.offset = some 0 ∧
    cellVal ws Col.isKeccakLeaf st.offset = some 0 ∧
    (∀ i : Fin 32, cellVal ws (Col.sAdvice i) st.offset
      = some (row.dropLast.getD (2 + i.val) 0)) ∧
    cellVal ws Col.isKeccakLeaf (st.offset + 1) = some 1 ∧
    cellVal ws Col.isCompactLeaf (st.offset + 1) = some 0 ∧
    cellVal ws Col.isBranchInit (st.offset + 1) = some 0 ∧
    cellVal ws Col.isBranchChild (st.offset + 1) = some 0 ∧
    (∀ i : Fin 32, cellVal ws (Col.sAdvice i) (st.offset + 1) =
      some (if i.val < 17 then (into_words (pad row.dropLast)).getD i.val 0
            else if i.val < 21 then (into_words (kec row.dropLast)).getD (i.val - 17) 0
            else 0)) ∧
    (∀ i : Fin 32, cellVal ws (Col.cAdvice i) (st.offset + 1) = some 0) ∧
    cellVal ws Col.sRlp1 (st.offset + 1) = some 0 ∧
    cellVal ws Col.sRlp2 (st.offset + 1) = some 0 ∧
    cellVal ws Col.cRlp1 (st.offset + 1) = some 0 ∧
    cellVal ws Col.cRlp2 (st.offset + 1) = some 0 := by
  have hkout : 4 ≤ (into_words (kec row.dropLast)).length := by
    rw [into_words_len, hkec]
  rw [stepFn_leaf_eq kec w ind row st hlen htag hkout] at hstep
  simp only [Option.some.injEq, Prod.mk.injEq] at hstep
  obtain ⟨rfl, rfl⟩ := hstep
  have hstrip : ∀ (c : Col) (o : Nat), c ≠ Col.qEnable → c ≠ Col.qNotFirst →
      cellVal (⟨Col.qEnable, st.offset, 1⟩ :: ⟨Col.qNotFirst, st.offset, 1⟩ ::
        leafWritesL (into_words (pad row.dropLast)) (into_words (kec row.dropLast))
          row.dropLast st.offset) c o
      = cellVal (leafWritesL (into_words (pad row.dropLast))
          (into_words (kec row.dropLast)) row.dropLast st.offset) c o := by
    intro c o hc1 hc2
    rw [cellVal_cons_col_ne (Ne.symm hc1), cellVal_cons_col_ne (Ne.symm hc2)]
  refine ⟨rfl, ?_, ?_, ?_, ?_, ?_, ?_, ?_, ?_, ?_, ?_, ?_, ?_, ?_, ?_, ?_⟩
  · rw [hstrip _ _ (by simp) (by simp)]
    exact (cellVal_leafL _ _ _ st.offset 0 _).trans (leafL_isCompactLeaf0 _ _ _)
  · rw [hstrip _ _ (by simp) (by simp)]
    exact (cellVal_leafL _ _ _ st.offset 0 _).trans (leafL_isBranchInit0 _ _ _)
  · rw [hstrip _ _ (by simp) (by simp)]
    exact (cellVal_leafL _ _ _ st.offset 0 _).trans (leafL_isBranchChild0 _ _ _)
  · rw [hstrip _ _ (by simp) (by simp)]
    exact (cellVal_leafL _ _ _ st.offset 0 _).trans (leafL_isKeccakLeaf0 _ _ _)
  · intro i
    rw [hstrip _ _ (by simp) (by simp)]
    exact (cellVal_leafL _ _ _ st.offset 0 _).trans (leafL_sAdvice0 _ _ _ i)
  · rw [hstrip _ _ (by simp) (by simp)]
    exact (cellVal_leafL _ _ _ st.offset 1 _).trans (leafL_isKeccakLeaf1 _ _ _)
  · rw [hstrip _ _ (by simp) (by simp)]
    exact (cellVal_leafL _ _ _ st.offset 1 _).trans (leafL_isCompactLeaf1 _ _ _)
  · rw [hstrip _ _ (by simp) (by simp)]
    exact (cellVal_leafL _ _ _ st.offset 1 _).trans (leafL_isBranchInit1 _ _ _)
  · rw [hstrip _ _ (by simp) (by simp)]
    exact (cellVal_leafL _ _ _ st.offset 1 _).trans (leafL_isBranchChild1 _ _ _)
  · intro i
    rw [hstrip _ _ (by simp) (by simp)]
    exact (cellVal_leafL _ _ _ st.offset 1 _).trans (leafL_sAdvice1 _ _ _ i)
  · intro i
    rw [hstrip _ _ (by simp) (by simp)]
    exact (cellVal_leafL _ _ _ st.offset 1 _).trans (leafL_cAdvice1 _ _ _ i)
  · rw [hstrip _ _ (by simp) (by simp)]
    exact (cellVal_leafL _ _ _ st.offset 1 _).trans (leafL_rlps1 _ _ _).1
  · rw [hstrip _ _ (by simp) (by simp)]
    exact (cellVal_leafL _ _ _ st.offset 1 _).trans (leafL_rlps1 _ _ _).2.1
  · rw [hstrip _ _ (by simp) (by simp)]
    exact (cellVal_leafL _ _ _ st.offset 1 _).trans (leafL_rlps1 _ _ _).2.2.1
  · rw [hstrip _ _ (by simp) (by simp)]
    exact (cellVal_leafL _ _ _ st.offset 1 _).trans (leafL_rlps1 _ _ _).2.2.2

/-- Witness for C6 at the concrete all-zero leaf row witness. -/
theorem compact_leaf_rows_w :
    c6st.offset = initState.offset + 2 ∧
    cellVal c6ws Col.isCompactLeaf initState.offset = some 1 ∧
    cellVal c6ws Col.isBranchInit initState.offset = some 0 ∧
    cellVal c6ws Col.isBranchChild initState.offset = some 0 ∧
    cellVal c6ws Col.isKeccakLeaf initState.offset = some 0 ∧
    (∀ i : Fin 32, cellVal c6ws (Col.sAdvice i) initState.offset
      = some (leafRowC.dropLast.getD (2 + i.val) 0)) ∧
    cellVal c6ws Col.isKeccakLeaf (initState.offset + 1) = some 1 ∧
    cellVal c6ws Col.isCompactLeaf (initState.offset + 1) = some 0 ∧
    cellVal c6ws Col.isBranchInit (initState.offset + 1) = some 0 ∧
    cellVal c6ws Col.isBranchChild (initState.offset + 1) = some 0 ∧
    (∀ i : Fin 32, cellVal c6ws (Col.sAdvice i) (initState.offset + 1) =
      some (if i.val < 17 then (into_words (pad leafRowC.dropLast)).getD i.val 0
            else if i.val < 21 then (into_words (kecC leafRowC.dropLast)).getD (i.val - 17) 0
            else 0)) ∧
    (∀ i : Fin 32, cellVal c6ws (Col.cAdvice i) (initState.offset + 1) = some 0) ∧
    cellVal c6ws Col.sRlp1 (initState.offset + 1) = some 0 ∧
    cellVal c6ws Col.sRlp2 (initState.offset + 1) = some 0 ∧
    cellVal c6ws Col.cRlp1 (initState.offset + 1) = some 0 ∧
    cellVal c6ws Col.cRlp2 (initState.offset + 1) = some 0 :=
  compact_leaf_rows kecC [leafRowC] 0 leafRowC initState c6ws c6st
    (by rfl) (by rfl) (by rfl) (by rfl)

/-! ## Cell values of a branch-child row (base offset 0) -/

theorem cellVal_brwL (ni k : Nat) (row sW cW : List Nat) (o q : Nat) (c : Col) :
    cellVal (branchRowWritesL ni k row sW cW o) c (o + q)
      = cellVal (branchRowWritesL ni k row sW cW 0) c q := by
  rw [branchRowWritesL_shift]
  exact cellVal_map_shift _ o q c

theorem brwL_isModified0 (ni k : Nat) (row sW cW : List Nat) :
    cellVal (branchRowWritesL ni k row sW cW 0) Col.isModified 0
      = some (if k = ni then 1 else 0) := rfl

theorem brwL_nodeIndex0 (ni k : Nat) (row sW cW : List Nat) :
    cellVal (branchRowWritesL ni k row sW cW 0) Col.nodeIndex 0 = some ni := rfl

theorem brwL_cAdvice0 (ni k : Nat) (row sW cW : List Nat) (i : Fin 32) :
    cellVal (branchRowWritesL ni k row sW cW 0) (Col.cAdvice i) 0
      = some (row.getD (36 + i.val) 0) := by
  fin_cases i <;> rfl

/-- Claim C4 amended: a BranchInit row whose lookahead `witness[ind+1+key]`
is out of range makes assignment fail (index panic, modelled `none`) — here
shown for a witness whose only row is the BranchInit row — but a row
narrower than the fixed width is NOT rejected: a branch-child row of full
length 36..68 is assigned successfully with the missing C-side cells
silently zero-filled by `get_val`, and a row with a type tag other than
0, 1, 2 is silently skipped (assignment succeeds and emits nothing). -/
theorem assign_malformed_behavior (kec : List Nat → List Nat) (r1 r2 r3 : List Nat)
    (t3 : Nat)
    (h1len : 5 ≤ r1.length) (h1tag : r1.getLast? = some 0)
    (h2len : 36 ≤ r2.length) (h2len' : r2.length ≤ 68) (h2tag : r2.getLast? = some 1)
    (h3tag : r3.getLast? = some t3) (h30 : t3 ≠ 0) (h31 : t3 ≠ 1) (h32 : t3 ≠ 2) :
    assign kec [r1] = none ∧
    (∃ tr, assign kec [r2] = some tr ∧
      cellVal tr (Col.cAdvice ⟨31, by omega⟩) 0 = some 0) ∧
    assign kec [r3] = some [] := by
  refine ⟨?_, ?_, ?_⟩
  · have h4 : r1.get? 4 = some (r1.getD 4 0) := by
      have h4' : 4 < r1.length := by omega
      have he : r1[4]? = some r1[4] := List.getElem?_eq_getElem h4'
      rw [List.get?_eq_getElem?, he, List.getD_eq_getElem?_getD, he]
      rfl
    have hnone : ([r1] : List (List Nat)).get? (0 + 1 + r1.getD 4 0) = none := by
      rw [List.get?_eq_none]
      simp
    have hstep : stepFn kec [r1] 0 r1 initState = none := by
      simp only [stepFn, h1tag, h4, hnone, if_true]
    show assignLoop kec [r1] [r1] 0 initState = none
    rw [assignLoop_cons, hstep]
    rfl
  · have h35 : 35 ≤ r2.dropLast.length := by
      rw [List.length_dropLast]
      omega
    have hg : branchRowWrites 0 0 r2.dropLast [0, 0, 0, 0] [0, 0, 0, 0] 0
        = some (branchRowWritesL 0 0 r2.dropLast [0, 0, 0, 0] [0, 0, 0, 0] 0) := by
      unfold branchRowWrites
      rw [if_pos ⟨h35, by simp, by simp⟩]
    refine ⟨⟨Col.qEnable, 0, 1⟩ :: ⟨Col.qNotFirst, 0, 1⟩ ::
      branchRowWritesL 0 0 r2.dropLast [0, 0, 0, 0] [0, 0, 0, 0] 0, ?_, ?_⟩
    · show assignLoop kec [r2] [r2] 0 initState = some _
      rw [assignLoop_cons]
      simp [stepFn, h2tag, initState, hg, assignLoop]
    · rw [cellVal_cons_col_ne (by simp), cellVal_cons_col_ne (by simp)]
      rw [brwL_cAdvice0]
      show some (r2.dropLast.getD 67 0) = some 0
      rw [List.getD_eq_default]
      rw [List.length_dropLast]
      omega
  · show assignLoop kec [r3] [r3] 0 initState = some []
    rw [assignLoop_cons, stepFn_skip_eq kec [r3] 0 r3 initState t3 h3tag h30 h31 h32]
    simp [assignLoop]

/-- Witness for the amended C4 at concrete malformed rows: a lone BranchInit
row (lookahead out of range), a 41-byte branch-child row, a row `[3]`. -/
theorem assign_malformed_behavior_w :
    assign kecC [initRowC] = none ∧
    (∃ tr, assign kecC [wRow40] = some tr ∧
      cellVal tr (Col.cAdvice ⟨31, by omega⟩) 0 = some 0) ∧
    assign kecC [[3]] = some [] :=
  assign_malformed_behavior kecC initRowC wRow40 [3] 3
    (by decide) (by decide) (by decide) (by decide) (by decide)
    (by decide) (by decide) (by decide) (by decide)

/-! ## Branch-group behaviour of the assigner (claim C3) -/

theorem assignLoop_children (kec : List Nat → List Nat) (w : List (List Nat)) :
    ∀ (cs : List (List Nat)) (rest : List (List Nat)) (ind : Nat) (st : AState) (tr : List Wr),
      (∀ r ∈ cs, wfChildRow r) →
      4 ≤ st.sWords.length → 4 ≤ st.cWords.length →
      st.branchInd + cs.length ≤ 255 →
      assignLoop kec w (cs ++ rest) ind st = some tr →
      ∃ trc trr,
        tr = trc ++ trr ∧
        assignLoop kec w rest (ind + cs.length)
          ⟨st.offset + cs.length, st.key, st.sWords, st.cWords, st.branchInd + cs.length⟩
          = some trr ∧
        (∀ e ∈ trc, st.offset ≤ e.offset ∧ e.offset < st.offset + cs.length) ∧
        ∀ j : Nat, j < cs.length →
          cellVal trc Col.isModified (st.offset + j)
            = some (if st.key = st.branchInd + j then 1 else 0) ∧
          cellVal trc Col.nodeIndex (st.offset + j) = some (st.branchInd + j) := by
  intro cs
  induction cs with
  | nil =>
    intro rest ind st tr _ _ _ _ h
    exact ⟨[], tr, rfl, h, by simp, fun j hj => absurd hj (by simp)⟩
  | cons c cs ih =>
    intro rest ind st tr hwf hsw hcw hb h
    have hc : wfChildRow c := hwf c (List.mem_cons_self c cs)
    have hmod : (st.branchInd + 1) % 256 = st.branchInd + 1 := by
      apply Nat.mod_eq_of_lt
      simp only [List.length_cons] at hb
      omega
    rw [List.cons_append, assignLoop_cons,
      stepFn_child_eq kec w ind c st hc hsw hcw, hmod] at h
    simp only [Option.some_bind] at h
    cases hrest : assignLoop kec w (cs ++ rest) (ind + 1)
        { st with offset := st.offset + 1, branchInd := st.branchInd + 1 } with
    | none => rw [hrest] at h; exact absurd h (by simp)
    | some tr1 =>
      rw [hrest] at h
      simp only [Option.map_some', Option.some.injEq] at h
      subst h
      have hwf' : ∀ r ∈ cs, wfChildRow r := fun r hr => hwf r (List.mem_cons_of_mem c hr)
      have hb' : ({ st with offset := st.offset + 1, branchInd := st.branchInd + 1 } :
          AState).branchInd + cs.length ≤ 255 := by
        dsimp only
        simp only [List.length_cons] at hb
        omega
      obtain ⟨trc, trr, rfl, hrr, hbound, hval⟩ :=
        ih rest (ind + 1) { st with offset := st.offset + 1, branchInd := st.branchInd + 1 }
          tr1 hwf' hsw hcw hb' hrest
      dsimp only at hrr hbound hval
      refine ⟨(⟨Col.qEnable, st.offset, 1⟩ :: ⟨Col.qNotFirst, st.offset, 1⟩ ::
        branchRowWritesL st.branchInd st.key c.dropLast st.sWords st.cWords st.offset) ++ trc,
        trr, by rw [List.append_assoc], ?_, ?_, ?_⟩
      · simp only [List.length_cons]
        have e1 : ind + 1 + cs.length = ind + (cs.length + 1) := by omega
        have e2 : st.offset + 1 + cs.length = st.offset + (cs.length + 1) := by omega
        have e3 : st.branchInd + 1 + cs.length = st.branchInd + (cs.length + 1) := by omega
        rw [e1, e2, e3] at hrr
        exact hrr
      · intro e he
        simp only [List.length_cons]
        rcases List.mem_append.mp he with h' | h'
        · rcases List.mem_cons.mp h' with rfl | h''
          · exact ⟨Nat.le_refl _, Nat.lt_add_of_pos_right (by omega)⟩
          · rcases List.mem_cons.mp h'' with rfl | h3
            · exact ⟨Nat.le_refl _, Nat.lt_add_of_pos_right (by omega)⟩
            · rw [mem_branchRowWritesL_offset h3]
              exact ⟨Nat.le_refl _, Nat.lt_add_of_pos_right (by omega)⟩
        · obtain ⟨ha, hb2⟩ := hbound e h'
          exact ⟨by omega, by omega⟩
      · intro j hj
        simp only [List.length_cons] at hj
        rcases Nat.eq_zero_or_pos j with rfl | hjpos
        · have htrc : ∀ cc, cellVal trc cc (st.offset + 0) = none := by
            intro cc
            apply cellVal_offsets_ne
            intro e he
            have := (hbound e he).1
            omega
          constructor
          · rw [cellVal_append_right_none (htrc _),
              cellVal_cons_col_ne (by simp), cellVal_cons_col_ne (by simp),
              cellVal_brwL st.branchInd st.key c.dropLast st.sWords st.cWords st.offset 0
                Col.isModified,
              brwL_isModified0]
            norm_num
          · rw [cellVal_append_right_none (htrc _),
              cellVal_cons_col_ne (by simp), cellVal_cons_col_ne (by simp),
              cellVal_brwL st.branchInd st.key c.dropLast st.sWords st.cWords st.offset 0
                Col.nodeIndex,
              brwL_nodeIndex0]
            norm_num
        · obtain ⟨j', rfl⟩ : ∃ j', j = j' + 1 := ⟨j - 1, by omega⟩
          have hj' : j' < cs.length := by omega
          obtain ⟨hv1, hv2⟩ := hval j' hj'
          have eq1 : st.offset + 1 + j' = st.offset + (j' + 1) := by omega
          have eq2 : st.branchInd + 1 + j' = st.branchInd + (j' + 1) := by omega
          rw [eq1, eq2] at hv1
          rw [eq1, eq2] at hv2
          exact ⟨cellVal_append_right_some hv1, cellVal_append_right_some hv2⟩

theorem assignLoop_groups (kec : List Nat → List Nat) :
    ∀ (gs : List BGroup) (w : List (List Nat)) (ind : Nat) (st : AState) (tr : List Wr),
      (∀ g ∈ gs, g.wf) →
      (∀ i : Nat, w.get? (ind + i) = (witnessOfGroups gs).get? i) →
      assignLoop kec w (witnessOfGroups gs) ind st = some tr →
      ∀ (k : Nat) (g : BGroup), gs.get? k = some g →
        ∀ j : Nat, j < 16 →
          cellVal tr Col.isModified (st.offset + (17 * k + 1 + j))
            = some (if j = g.key then 1 else 0) ∧
          cellVal tr Col.nodeIndex (st.offset + (17 * k + 1 + j)) = some j := by
  intro gs
  induction gs with
  | nil =>
    intro w ind st tr _ _ _ k g hk
    rw [List.get?_eq_none.mpr (by simp)] at hk
    exact absurd hk (by simp)
  | cons g0 gs ih =>
    intro w ind st tr hwf hw h k g hk j hj
    obtain ⟨⟨hlen0, htag0, hkey0⟩, hlen16, hwfc⟩ := hwf g0 (List.mem_cons_self g0 gs)
    have hwog : witnessOfGroups (g0 :: gs) = g0.init :: (g0.children ++ witnessOfGroups gs) := by
      simp [witnessOfGroups, BGroup.rows]
    rw [hwog] at h
    obtain ⟨ch, hchg⟩ : ∃ ch, g0.children.get? (g0.init.getD 4 0) = some ch := by
      cases hcg : g0.children.get? (g0.init.getD 4 0) with
      | none => rw [List.get?_eq_none] at hcg; omega
      | some ch => exact ⟨ch, rfl⟩
    have hchwf : wfChildRow ch := hwfc ch (List.get?_mem hchg)
    have hlook : w.get? (ind + 1 + g0.init.getD 4 0) = some ch := by
      have hwi := hw (1 + g0.init.getD 4 0)
      rw [← Nat.add_assoc] at hwi
      rw [hwi, hwog, show 1 + g0.init.getD 4 0 = g0.init.getD 4 0 + 1 from by omega,
        List.get?_cons_succ, List.get?_append (by omega : g0.init.getD 4 0 < g0.children.length)]
      exact hchg
    rw [assignLoop_cons, stepFn_init_eq kec w ind g0.init st ⟨hlen0, htag0, hkey0⟩ ch hlook
      (by have := hchwf.1; omega)] at h
    simp only [Option.some_bind] at h
    cases hrest : assignLoop kec w (g0.children ++ witnessOfGroups gs) (ind + 1)
        ⟨st.offset + 1, g0.init.getD 4 0, into_words ((ch.drop 2).take 32),
         into_words ((ch.drop 36).take 32), 0⟩ with
    | none => rw [hrest] at h; exact absurd h (by simp)
    | some tr1 =>
      rw [hrest] at h
      simp only [Option.map_some', Option.some.injEq] at h
      subst h
      have hch69 := hchwf.1
      have hsw4 : 4 ≤ (into_words ((ch.drop 2).take 32)).length := by
        rw [into_words_len, List.length_take, List.length_drop, hch69]
        omega
      have hcw4 : 4 ≤ (into_words ((ch.drop 36).take 32)).length := by
        rw [into_words_len, List.length_take, List.length_drop, hch69]
        omega
      obtain ⟨trc, trr, rfl, hrr, hbound, hval⟩ :=
        assignLoop_children kec w g0.children (witnessOfGroups gs) (ind + 1)
          ⟨st.offset + 1, g0.init.getD 4 0, into_words ((ch.drop 2).take 32),
           into_words ((ch.drop 36).take 32), 0⟩ tr1 hwfc hsw4 hcw4
          (by dsimp only; omega) hrest
      dsimp only at hrr hbound hval
      cases k with
      | zero =>
        simp only [List.get?_cons_zero, Option.some.injEq] at hk
        subst hk
        have hjlen : j < g0.children.length := by omega
        obtain ⟨hv1, hv2⟩ := hval j hjlen
        have htrr : ∀ cc, cellVal trr cc (st.offset + 1 + j) = none := by
          intro cc
          apply cellVal_offsets_ne
          intro e he
          have := (assignLoop_bounds kec w _ _ _ _ hrr).2 e he
          dsimp only at this
          omega
        have hq : st.offset + (17 * 0 + 1 + j) = st.offset + 1 + j := by omega
        rw [hq]
        constructor
        · have hin : cellVal (trc ++ trr) Col.isModified (st.offset + 1 + j)
              = some (if g0.init.getD 4 0 = 0 + j then 1 else 0) := by
            rw [cellVal_append_right_none (htrr _)]
            exact hv1
          rw [cellVal_append_right_some hin]
          simp only [Nat.zero_add, BGroup.key]
          by_cases hc : j = g0.init.getD 4 0
          · rw [if_pos hc.symm, if_pos hc]
          · rw [if_neg (fun hh => hc hh.symm), if_neg hc]
        · have hin : cellVal (trc ++ trr) Col.nodeIndex (st.offset + 1 + j)
              = some (0 + j) := by
            rw [cellVal_append_right_none (htrr _)]
            exact hv2
          rw [cellVal_append_right_some hin]
          simp only [Nat.zero_add]
      | succ k' =>
        simp only [List.get?_cons_succ] at hk
        have hw' : ∀ i : Nat, w.get? ((ind + 1 + g0.children.length) + i)
            = (witnessOfGroups gs).get? i := by
          intro i
          have h17 : (ind + 1 + g0.children.length) + i = ind + (17 + i) := by omega
          rw [h17, hw (17 + i), hwog,
            show 17 + i = (16 + i) + 1 from by omega, List.get?_cons_succ,
            List.get?_append_right (by omega : g0.children.length ≤ 16 + i)]
          congr 1
          omega
        have ihres := ih w (ind + 1 + g0.children.length)
          ⟨st.offset + 1 + g0.children.length, g0.init.getD 4 0,
           into_words ((ch.drop 2).take 32), into_words ((ch.drop 36).take 32),
           0 + g0.children.length⟩ trr
          (fun g' hg' => hwf g' (List.mem_cons_of_mem g0 hg')) hw' hrr k' g hk j hj
        obtain ⟨hv1, hv2⟩ := ihres
        dsimp only at hv1 hv2
        have hqeq : st.offset + 1 + g0.children.length + (17 * k' + 1 + j)
            = st.offset + (17 * (k' + 1) + 1 + j) := by omega
        rw [hqeq] at hv1 hv2
        exact ⟨cellVal_append_right_some (cellVal_append_right_some hv1),
          cellVal_append_right_some (cellVal_append_right_some hv2)⟩

/-- Claim C3: for a well-formed witness made of branch groups — each group a
BranchInit row with key byte in 0..15 followed by exactly 16 branch-child
rows — the assigner gives the 16 child rows of group `k` (at circuit offsets
`17k+1 .. 17k+16`) `node_index` values `0..15`, and sets `is_modified = 1`
exactly on the one child whose `node_index` equals the group's key, 0 on the
other 15. -/
theorem branch_group_modified_unique (kec : List Nat → List Nat) (gs : List BGroup)
    (hwf : ∀ g ∈ gs, g.wf) (tr : List Wr)
    (h : assign kec (witnessOfGroups gs) = some tr)
    (k : Nat) (g : BGroup) (hk : gs.get? k = some g) (j : Nat) (hj : j < 16) :
    cellVal tr Col.isModified (17 * k + 1 + j) = some (if j = g.key then 1 else 0) ∧
    cellVal tr Col.nodeIndex (17 * k + 1 + j) = some j := by
  have hres := assignLoop_groups kec gs (witnessOfGroups gs) 0 initState tr hwf
    (fun i => by rw [Nat.zero_add]) h k g hk j hj
  simpa [initState] using hres

/-- Witness for C3: one concrete group with key 5; its child at node_index 3
is not modified (`is_modified = 0`). -/
theorem branch_group_modified_unique_w :
    cellVal trG Col.isModified 4 = some 0 ∧ cellVal trG Col.nodeIndex 4 = some 3 := by
  have hres := branch_group_modified_unique kecC [groupG] (by decide) trG (by rfl)
    0 groupG rfl 3 (by omega)
  simpa [groupG, initRowG, BGroup.key] using hres
